import Mathlib

/-!
# my-custom-ingress-controller: routing table, path routing and certificate selection

A shallow embedding of `server/server.go` and `watcher/watcher.go`.

Modelling conventions.
* Go strings are Lean strings; the byte-level library calls the code makes
  (`strings.Split(_, ":")[0]`, `strings.SplitN(_, ".", 2)`, `strings.HasPrefix`,
  `host[2:]`) only cut at ASCII separators, so they are modelled on the list of
  characters.
* Go maps are association lists with at most one pair per key (`mapGet`, `mapSet`).
  Where the code ranges over a map whose order can matter (`resource.Certificates`
  in `GetCertificate`) the traversal order is an explicit argument.
* A nil pointer is `none`; a function that can dereference nil returns `Option`,
  with `none` standing for the runtime panic.
* `url.Parse` and `tls.X509KeyPair` belong to the Go standard library and are
  parameters of the model (`none` is the error result).
* The mutex of `Server` serialises the critical sections; each locked section is
  one atomic step on `Server.resources`.
-/

set_option autoImplicit false

/-! ## Go strings and maps -/

/-- Cut a character list at the first occurrence of `sep`: the part before and the
part after it, or `none` when `sep` does not occur. -/
def cut (sep : Char) : List Char → Option (List Char × List Char)
  | [] => none
  | c :: cs =>
    if c = sep then some ([], cs)
    else
      match cut sep cs with
      | none => none
      | some (a, b) => some (c :: a, b)

/-- Go `strings.HasPrefix(s, p)`. -/
def HasPrefix (s p : String) : Bool :=
  List.isPrefixOf p.data s.data

/-- Go `strings.Split(s, ":")[0]`: the text before the first colon, all of `s` when
there is none. -/
def SplitColonFirst (s : String) : String :=
  match cut ':' s.data with
  | none => s
  | some (a, _) => String.mk a

/-- Go map read `m[k]` with the comma-ok form. -/
def mapGet {κ ν : Type} [DecidableEq κ] : List (κ × ν) → κ → Option ν
  | [], _ => none
  | (k', v) :: m, k => if k' = k then some v else mapGet m k

/-- Go map write `m[k] = v`: overwrite the pair of `k`, or add one. -/
def mapSet {κ ν : Type} [DecidableEq κ] : List (κ × ν) → κ → ν → List (κ × ν)
  | [], k, v => [(k, v)]
  | (k', v') :: m, k, v => if k' = k then (k, v) :: m else (k', v') :: mapSet m k v

/-! ## Kubernetes API objects (the fields the code reads) -/

namespace networking

/-- Go `type PathType string`. -/
abbrev PathType := String

/-- Constant `networking.PathTypeExact`. -/
def PathTypeExact : PathType := "Exact"

/-- Constant `networking.PathTypePrefix`. -/
def PathTypePrefix : PathType := "Prefix"

structure ServiceBackendPort where
  Name : String
  Number : Int
  deriving DecidableEq, Repr

structure IngressServiceBackend where
  Name : String
  Port : ServiceBackendPort
  deriving DecidableEq, Repr

/-- Field `Service` is a pointer in Go (nil for a resource backend). -/
structure IngressBackend where
  Service : Option IngressServiceBackend
  deriving DecidableEq, Repr

/-- Field `PathType` is a pointer in Go. -/
structure HTTPIngressPath where
  Path : String
  Backend : IngressBackend
  PathType : Option networking.PathType
  deriving DecidableEq, Repr

structure HTTPIngressRuleValue where
  Paths : List HTTPIngressPath
  deriving DecidableEq, Repr

/-- Field `HTTP` is a pointer in Go (nil when the rule has no HTTP section). -/
structure IngressRule where
  Host : String
  HTTP : Option HTTPIngressRuleValue
  deriving DecidableEq, Repr

structure IngressTLS where
  Hosts : List String
  SecretName : String
  deriving DecidableEq, Repr

structure IngressSpec where
  DefaultBackend : Option IngressBackend
  TLS : List IngressTLS
  Rules : List IngressRule
  deriving DecidableEq, Repr

structure Ingress where
  Namespace : String
  Annotations : List (String × String)
  Spec : IngressSpec
  deriving DecidableEq, Repr

end networking

namespace corev1

structure ServicePort where
  Name : String
  Port : Int
  deriving DecidableEq, Repr

structure Service where
  Namespace : String
  Name : String
  Ports : List ServicePort
  deriving DecidableEq, Repr

structure Secret where
  Namespace : String
  Name : String
  Data : List (String × String)
  deriving DecidableEq, Repr

end corev1

/-- Go `tls.Certificate`, as built by `tls.X509KeyPair` from the two PEM blocks. -/
structure Certificate where
  certPEM : String
  keyPEM : String
  deriving DecidableEq, Repr

/-- Go `url.URL`: the fields a reverse proxy target uses. -/
structure URL where
  Scheme : String
  Host : String
  Path : String
  deriving DecidableEq, Repr

/-! ## watcher/watcher.go -/

namespace watcher

/-- An ingress and its service ports. -/
structure IngressPayload where
  Ingress : networking.Ingress
  ServicePorts : List (String × List (String × Int))
  deriving DecidableEq, Repr

/-- The collection of Kubernetes data loaded by the watcher. -/
structure Payload where
  Ingresses : List IngressPayload
  TLSCertificates : List (String × Certificate)
  deriving DecidableEq, Repr

/-- The informer caches behind the three listers of `Watcher`. `ingresses = none`
is `ingressLister.List` returning an error. -/
structure Listers where
  ingresses : Option (List networking.Ingress)
  services : List corev1.Service
  secrets : List corev1.Secret
  deriving DecidableEq, Repr

/-- Call `w.serviceLister.Services(ns).Get(name)`; `none` is the not-found error. -/
def Listers.getService (w : Listers) (ns name : String) : Option corev1.Service :=
  w.services.find? (fun s => decide (s.Namespace = ns ∧ s.Name = name))

/-- Call `w.secretLister.Secrets(ns).Get(name)`; `none` is the not-found error. -/
def Listers.getSecret (w : Listers) (ns name : String) : Option corev1.Secret :=
  w.secrets.find? (fun s => decide (s.Namespace = ns ∧ s.Name = name))

/-- Method `Watcher.addBackend`. Outer `none`: nil dereference of `backend.Service`.
Otherwise the ingress payload after the call and whether an error was returned. -/
def addBackend (w : Listers) (ingressPayload : IngressPayload)
    (backend : networking.IngressBackend) : Option (IngressPayload × Bool) :=
  match backend.Service with
  | none => none
  | some service =>
    match w.getService ingressPayload.Ingress.Namespace service.Name with
    | none => some (ingressPayload, true)
    | some svc =>
      let m := svc.Ports.foldl (fun m port => mapSet m port.Name port.Port) []
      some ({ ingressPayload with
                ServicePorts := mapSet ingressPayload.ServicePorts svc.Name m }, false)

/-- The rule loop of `Watcher.onChange` (watcher.go lines 87-96) for one rule: a rule
whose `HTTP` is not nil is skipped by `continue`; otherwise `rule.HTTP.Paths` is read. -/
def onChangeRule (w : Listers) (ingressPayload : IngressPayload)
    (rule : networking.IngressRule) : Option IngressPayload :=
  if rule.HTTP ≠ none then some ingressPayload
  else
    match rule.HTTP with
    | none => none
    | some http =>
      http.Paths.foldlM
        (fun ip path => (addBackend w ip path.Backend).map Prod.fst) ingressPayload

/-- The TLS loop of `Watcher.onChange` (watcher.go lines 98-114) for one record. -/
def onChangeTLS (x509KeyPair : String → String → Option Certificate) (w : Listers)
    (ns : String) (certs : List (String × Certificate)) (rec : networking.IngressTLS) :
    List (String × Certificate) :=
  if rec.SecretName ≠ "" then
    match w.getSecret ns rec.SecretName with
    | none => certs
    | some secret =>
      match x509KeyPair ((mapGet secret.Data "tls.crt").getD "")
              ((mapGet secret.Data "tls.key").getD "") with
      | none => certs
      | some cert => mapSet certs rec.SecretName cert
  else certs

/-- The body of the ingress loop of `Watcher.onChange` (watcher.go lines 77-115).
The copy appended to `payload.Ingresses` shares its `ServicePorts` map with the
local `ingressPayload`, so it carries the ports added afterwards. -/
def onChangeIngress (x509KeyPair : String → String → Option Certificate) (w : Listers)
    (payload : Payload) (ingress : networking.Ingress) : Option Payload :=
  let ingressPayload : IngressPayload := { Ingress := ingress, ServicePorts := [] }
  let afterDefault : Option IngressPayload :=
    match ingress.Spec.DefaultBackend with
    | some b => (addBackend w ingressPayload b).map Prod.fst
    | none => some ingressPayload
  match afterDefault with
  | none => none
  | some ip1 =>
    match ingress.Spec.Rules.foldlM (onChangeRule w) ip1 with
    | none => none
    | some ip2 =>
      some { Ingresses := payload.Ingresses ++ [ip2]
             TLSCertificates :=
               ingress.Spec.TLS.foldl (onChangeTLS x509KeyPair w ingress.Namespace)
                 payload.TLSCertificates }

/-- Method `Watcher.onChange`. Outer `none`: runtime panic. `some none`: the listing
failed and the method returned without calling `onChanges`. `some (some p)`:
`onChanges` was called with `p`. -/
def onChange (x509KeyPair : String → String → Option Certificate) (w : Listers) :
    Option (Option Payload) :=
  match w.ingresses with
  | none => some none
  | some ingresses =>
    match ingresses.foldlM (onChangeIngress x509KeyPair w)
        { Ingresses := [], TLSCertificates := [] } with
    | none => none
    | some payload => some (some payload)

end watcher

/-! ## server/server.go -/

namespace server

open networking

structure backend where
  path : String
  pathType : PathType
  url : URL
  deriving DecidableEq, Repr

structure resource where
  Config : List (String × String)
  Certificates : List (String × Certificate)
  Backends : List backend
  deriving DecidableEq, Repr

/-- The state of `Server` guarded by `mtx`. -/
structure Server where
  resources : List (String × resource)
  deriving DecidableEq, Repr

/-- Constructor `server.New`. -/
def New : Server := { resources := [] }

/-- What the HTTPS handler does with a request. -/
inductive Response where
  | proxied (target : URL)
  | serviceNotFound
  | noResponse
  deriving DecidableEq, Repr

/-- The backend loop of the HTTPS handler (server.go lines 52-65). -/
def serveBackends : List backend → String → Response
  | [], _ => Response.noResponse
  | b :: rest, path =>
    if (b.pathType = PathTypePrefix ∧ HasPrefix path b.path = true) ∨
        (b.pathType = PathTypeExact ∧ path = b.path) then
      Response.proxied b.url
    else serveBackends rest path

/-- The HTTPS handler of `Server.Run` (server.go lines 46-69) on a request with
`r.Host = host` and `r.URL.Path = path`. -/
def Handler (s : Server) (host path : String) : Response :=
  match mapGet s.resources (SplitColonFirst host) with
  | some res => serveBackends res.Backends path
  | none => Response.serviceNotFound

/-- The result of `GetCertificate`: a certificate, or the error
"certificate not found for NAME". -/
inductive CertificateResult where
  | certificate (cert : Certificate)
  | certificateNotFound (serverName : String)
  deriving DecidableEq, Repr

/-- The inner loop of `GetCertificate` (server.go lines 79-85) on character lists:
the final `host`, the final `hello.ServerName`, and whether the loop ran to its end
(`false` when it left through `continue next`). `cut '.' serverName` is
`strings.SplitN(hello.ServerName, ".", 2)`: `none` when the result has one element,
otherwise its two elements; `host[2:]` is the tail after the matched `*.`. -/
def stripWildcards : List Char → List Char → List Char × List Char × Bool
  | '*' :: '.' :: host, serverName =>
    match cut '.' serverName with
    | none => ('*' :: '.' :: host, serverName, false)
    | some (_, rest) => stripWildcards host rest
  | host, serverName => (host, serverName, true)

/-- The certificate loop of `GetCertificate` (server.go lines 78-91) over the entries
in traversal order; `hello.ServerName` is threaded through the iterations. -/
def certificateLoop : List (String × Certificate) → String → CertificateResult
  | [], serverName => CertificateResult.certificateNotFound serverName
  | (host, cert) :: rest, serverName =>
    match stripWildcards host.data serverName.data with
    | (host', serverName', true) =>
      if host' = serverName' then CertificateResult.certificate cert
      else certificateLoop rest (String.mk serverName')
    | (_, serverName', false) => certificateLoop rest (String.mk serverName')

/-- The callback `TLSConfig.GetCertificate` of `Server.Run` (server.go lines 72-92) on
`hello.ServerName = serverName`. `range` is the order in which the Go runtime
traverses the certificate map. -/
def GetCertificate (s : Server)
    (range : List (String × Certificate) → List (String × Certificate))
    (serverName : String) : CertificateResult :=
  match mapGet s.resources (SplitColonFirst serverName) with
  | some res => certificateLoop (range res.Certificates) serverName
  | none => CertificateResult.certificateNotFound serverName

/-- The certificate loop of `Update` (server.go lines 131-137). -/
def initCerts (TLSCertificates : List (String × Certificate))
    (tls : List IngressTLS) : List (String × Certificate) :=
  tls.foldl
    (fun certs t =>
      t.Hosts.foldl
        (fun certs host =>
          match mapGet TLSCertificates t.SecretName with
          | some cert => mapSet certs host cert
          | none => certs)
        certs)
    []

/-- The link `fmt.Sprintf("%s://%s:%d", scheme, name, number)` of `Update`, where
`scheme` is always "http". -/
def link (service : IngressServiceBackend) : String :=
  "http" ++ "://" ++ service.Name ++ ":" ++ toString service.Port.Number

/-- One iteration of the backend loop of `Update` (server.go lines 139-147). `none`:
nil dereference of `path.Backend.Service` or of `path.PathType`. -/
def initBackend (parse : String → Option URL) (Backends : List backend)
    (path : HTTPIngressPath) : Option (List backend) :=
  match path.Backend.Service with
  | none => none
  | some service =>
    match parse (link service) with
    | none => some Backends
    | some u =>
      match path.PathType with
      | none => none
      | some pt => some (Backends ++ [{ path := path.Path, pathType := pt, url := u }])

/-- The resource `r` that `Update` builds for one rule (server.go lines 125-147).
`none`: nil dereference (of `rule.HTTP`, or inside the backend loop). -/
def newResource (parse : String → Option URL) (payload : watcher.Payload)
    (ingressPayload : watcher.IngressPayload) (rule : IngressRule) : Option resource :=
  let Config := ingressPayload.Ingress.Annotations.foldl (fun c kv => mapSet c kv.1 kv.2) []
  let Certificates := initCerts payload.TLSCertificates ingressPayload.Ingress.Spec.TLS
  match rule.HTTP with
  | none => none
  | some http =>
    match http.Paths.foldlM (initBackend parse) [] with
    | none => none
    | some Backends =>
      some { Config := Config, Certificates := Certificates, Backends := Backends }

/-- The body of the rule loop of `Update` (server.go lines 125-151): build `r`, then
`s.resources[rule.Host] = r` under the lock. -/
def updateRule (parse : String → Option URL) (payload : watcher.Payload)
    (ingressPayload : watcher.IngressPayload) (s : Server) (rule : IngressRule) :
    Option Server :=
  match newResource parse payload ingressPayload rule with
  | none => none
  | some r => some { resources := mapSet s.resources rule.Host r }

/-- Method `Server.Update`. `none`: runtime panic. -/
def Update (parse : String → Option URL) (s : Server) (payload : watcher.Payload) :
    Option Server :=
  payload.Ingresses.foldlM
    (fun s ingressPayload =>
      ingressPayload.Ingress.Spec.Rules.foldlM (updateRule parse payload ingressPayload) s)
    s

end server

/-! ## Derived definitions used to state the results -/

namespace server

open networking

/-- The rules `Update` visits, in visiting order, each with the ingress payload it
belongs to (the two nested loops of server.go lines 123-124). -/
def visited (payload : watcher.Payload) : List (watcher.IngressPayload × IngressRule) :=
  payload.Ingresses.flatMap
    (fun ingressPayload => ingressPayload.Ingress.Spec.Rules.map (fun rule => (ingressPayload, rule)))

/-- The values of `s.resources` a locked reader can see while `Update` works through
the given rules: the value on entry and the value after each locked write
(server.go lines 149-151), up to a panic. -/
def observableFrom (parse : String → Option URL) (payload : watcher.Payload) :
    Server → List (watcher.IngressPayload × IngressRule) → List Server
  | s, [] => [s]
  | s, (ingressPayload, rule) :: rest =>
    s ::
      match updateRule parse payload ingressPayload s rule with
      | none => []
      | some s' => observableFrom parse payload s' rest

/-- The values of `s.resources` a locked reader can see while `Update s payload` runs. -/
def observable (parse : String → Option URL) (s : Server) (payload : watcher.Payload) :
    List Server :=
  observableFrom parse payload s (visited payload)

/-- A rule on which `Update` meets no nil pointer: it has an HTTP section and each of
its paths has a service backend and a path type. -/
def noNil (rule : IngressRule) : Bool :=
  match rule.HTTP with
  | none => false
  | some http => http.Paths.all (fun path => path.Backend.Service.isSome && path.PathType.isSome)

/-- The backend entry `Update` appends for a path: present when the path has a service
backend whose link parses and a path type. -/
def backendOf (parse : String → Option URL) (path : HTTPIngressPath) : Option backend :=
  match path.Backend.Service, path.PathType with
  | some service, some pt =>
    match parse (link service) with
    | some u => some { path := path.Path, pathType := pt, url := u }
    | none => none
  | _, _ => none

/-- The wiring of main.go line 53: the watcher's callback is `s.Update`. One rebuild is
`Watcher.onChange` followed, when it calls back, by `Server.Update`. -/
def rebuild (parse : String → Option URL)
    (x509KeyPair : String → String → Option Certificate) (w : watcher.Listers)
    (s : Server) : Option Server :=
  match watcher.onChange x509KeyPair w with
  | none => none
  | some none => some s
  | some (some payload) => Update parse s payload

/-- A rule of the request-matching contract in the words of the specification: an
Exact rule matches when the request path equals its pattern, a Prefix rule when the
request path starts with its pattern. -/
def RuleMatches (b : backend) (path : String) : Prop :=
  (b.pathType = PathTypeExact ∧ path = b.path) ∨
    (b.pathType = PathTypePrefix ∧ ∃ rest : String, path = b.path ++ rest)

/-- Characters allowed in the host part of the links accepted by `parseServiceLink`. -/
def isNameChar (c : Char) : Bool :=
  c.isAlphanum || c == '-' || c == '.'

/-- Go `url.Parse` restricted to links `http://NAME:PORT` where NAME is a non-empty run
of letters, digits, `-` and `.` and PORT a non-empty run of digits: on such a link the
Go parser succeeds with scheme `http`, host `NAME:PORT` and an empty path. Every other
link is rejected here; this function is used at concrete inputs of that shape only,
the general results hold for every parser. -/
def parseServiceLink (lnk : String) : Option URL :=
  match lnk.data with
  | 'h' :: 't' :: 't' :: 'p' :: ':' :: '/' :: '/' :: rest =>
    match cut ':' rest with
    | none => none
    | some (name, port) =>
      if name ≠ [] ∧ name.all isNameChar = true ∧ port ≠ [] ∧ port.all Char.isDigit = true then
        some { Scheme := "http", Host := String.mk rest, Path := "" }
      else none
  | _ => none

/-- The pairs `(host, hello.ServerName)` right after each execution of the assignment
in the inner loop of `GetCertificate` (server.go line 84). -/
def stripStates : List Char → List Char → List (List Char × List Char)
  | '*' :: '.' :: host, serverName =>
    match cut '.' serverName with
    | none => []
    | some (_, rest) => (host, rest) :: stripStates host rest
  | _, _ => []

/-- The outcome of the inner loop on which the entry is not returned: the loop left
through `continue next`, or the final host differs from the final server name. -/
def Miss (r : List Char × List Char × Bool) : Prop :=
  r.2.2 = false ∨ r.1 ≠ r.2.1

/-- One step of `Update` on the flattened rule list. -/
def stepRule (parse : String → Option URL) (payload : watcher.Payload) (s : Server)
    (x : watcher.IngressPayload × IngressRule) : Option Server :=
  updateRule parse payload x.1 s x.2

/-- Fixture: an ingress path with the given pattern and path type, to service `svc` on
the numbered port. -/
def pathTo (path : String) (pt : PathType) (svc : String) (port : Int) : HTTPIngressPath :=
  { Path := path, PathType := some pt,
    Backend := { Service := some { Name := svc, Port := { Name := "", Number := port } } } }

/-- Fixture: a rule for `host` with the given paths. -/
def ruleFor (host : String) (paths : List HTTPIngressPath) : IngressRule :=
  { Host := host, HTTP := some { Paths := paths } }

/-- Fixture: an ingress of namespace `default` with the given rules, no annotations, no
default backend and no TLS section. -/
def ingressOf (rules : List IngressRule) : Ingress :=
  { Namespace := "default", Annotations := [],
    Spec := { DefaultBackend := none, TLS := [], Rules := rules } }

/-- Fixture: the payload `Watcher.onChange` builds from the ingresses when no secret is
referenced. -/
def payloadOf (ingresses : List Ingress) : watcher.Payload :=
  { Ingresses := ingresses.map (fun i => { Ingress := i, ServicePorts := [] }),
    TLSCertificates := [] }

/-- Fixture: a backend entry proxying to `http://target`. -/
def backendTo (path : String) (pt : PathType) (target : String) : backend :=
  { path := path, pathType := pt, url := { Scheme := "http", Host := target, Path := "" } }

/-- Fixture: a virtual host without annotations and certificates. -/
def hostWith (backends : List backend) : resource :=
  { Config := [], Certificates := [], Backends := backends }

end server

namespace watcher

open networking

/-- An ingress whose default backend, when present, is a service backend. -/
def defaultOk (ingress : Ingress) : Bool :=
  match ingress.Spec.DefaultBackend with
  | none => true
  | some b => b.Service.isSome

end watcher

/-! ## Lemmas on strings and maps -/

theorem cut_append_sep (sep : Char) (a r : List Char) (ha : sep ∉ a) :
    cut sep (a ++ sep :: r) = some (a, r) := by
  induction a with
  | nil => simp [cut]
  | cons c cs ih =>
    have hc : c ≠ sep := fun h => ha (by simp [h])
    have hcs : sep ∉ cs := fun h => ha (by simp [h])
    simp [cut, hc, ih hcs]

theorem cut_eq_none (sep : Char) (l : List Char) (hl : sep ∉ l) : cut sep l = none := by
  induction l with
  | nil => simp [cut]
  | cons c cs ih =>
    have hc : c ≠ sep := fun h => hl (by simp [h])
    have hcs : sep ∉ cs := fun h => hl (by simp [h])
    simp [cut, hc, ih hcs]

theorem cut_eq_some (sep : Char) (l a b : List Char) (h : cut sep l = some (a, b)) :
    l = a ++ sep :: b ∧ sep ∉ a := by
  induction l generalizing a with
  | nil => simp [cut] at h
  | cons c cs ih =>
    unfold cut at h
    by_cases hc : c = sep
    · simp [hc] at h
      obtain ⟨rfl, rfl⟩ := h
      simp [hc]
    · simp only [hc, if_false] at h
      cases hcut : cut sep cs with
      | none => simp [hcut] at h
      | some p =>
        obtain ⟨a', b'⟩ := p
        simp [hcut] at h
        obtain ⟨rfl, rfl⟩ := h
        obtain ⟨h1, h2⟩ := ih a' hcut
        refine ⟨by simp [← h1], ?_⟩
        intro hmem
        rcases List.mem_cons.1 hmem with h3 | h3
        · exact hc h3.symm
        · exact h2 h3

theorem SplitColonFirst_of_no_colon (s : String) (hs : ':' ∉ s.data) :
    SplitColonFirst s = s := by
  simp [SplitColonFirst, cut_eq_none ':' s.data hs]

theorem SplitColonFirst_append_colon (s t : String) (hs : ':' ∉ s.data) :
    SplitColonFirst (s ++ ":" ++ t) = s := by
  have h : (s ++ ":" ++ t).data = s.data ++ ':' :: t.data := by
    simp [String.data_append]
  simp [SplitColonFirst, h, cut_append_sep ':' s.data t.data hs]

theorem HasPrefix_iff (s p : String) : HasPrefix s p = true ↔ ∃ rest : String, s = p ++ rest := by
  unfold HasPrefix
  rw [ List.isPrefixOf_iff_prefix]
  constructor
  · rintro ⟨t, ht⟩
    exact ⟨String.mk t, String.ext (by simp [String.data_append, ht])⟩
  · rintro ⟨rest, rfl⟩
    exact ⟨rest.data, by simp [String.data_append]⟩

theorem mapGet_mapSet_same {κ ν : Type} [DecidableEq κ] (m : List (κ × ν)) (k : κ) (v : ν) :
    mapGet (mapSet m k v) k = some v := by
  induction m with
  | nil => simp [mapSet, mapGet]
  | cons p m ih =>
    obtain ⟨k', v'⟩ := p
    by_cases hk : k' = k
    · simp [mapSet, mapGet, hk]
    · simp [mapSet, mapGet, hk, ih]

theorem mapGet_mapSet_other {κ ν : Type} [DecidableEq κ] (m : List (κ × ν)) (k k0 : κ) (v : ν)
    (hne : k ≠ k0) : mapGet (mapSet m k v) k0 = mapGet m k0 := by
  induction m with
  | nil => simp [mapSet, mapGet, hne]
  | cons p m ih =>
    obtain ⟨k', v'⟩ := p
    by_cases hk : k' = k
    · subst hk
      simp [mapSet, mapGet, hne]
    · by_cases hk0 : k' = k0
      · subst hk0
        simp [mapSet, mapGet, hk]
      · simp [mapSet, mapGet, hk, hk0, ih]

/-! ## Path routing (the HTTPS handler) -/

namespace server

open networking

theorem serveBackends_cond_iff (b : backend) (path : String) :
    ((b.pathType = PathTypePrefix ∧ HasPrefix path b.path = true) ∨
        (b.pathType = PathTypeExact ∧ path = b.path)) ↔ RuleMatches b path := by
  unfold RuleMatches
  rw [HasPrefix_iff]
  exact Or.comm

theorem serveBackends_cons_match (b : backend) (rest : List backend) (path : String)
    (h : RuleMatches b path) : serveBackends (b :: rest) path = Response.proxied b.url := by
  have hc := (serveBackends_cond_iff b path).2 h
  simp only [serveBackends]
  rw [if_pos hc]

theorem serveBackends_cons_skip (b : backend) (rest : List backend) (path : String)
    (h : ¬ RuleMatches b path) : serveBackends (b :: rest) path = serveBackends rest path := by
  have hc : ¬ ((b.pathType = PathTypePrefix ∧ HasPrefix path b.path = true) ∨
      (b.pathType = PathTypeExact ∧ path = b.path)) :=
    fun hc => h ((serveBackends_cond_iff b path).1 hc)
  simp only [serveBackends]
  rw [if_neg hc]

theorem serveBackends_first (l : List backend) (path : String) (i : Nat) (b : backend)
    (hb : l[i]? = some b) (hm : RuleMatches b path)
    (hfirst : ∀ (j : Nat) (b' : backend), j < i → l[j]? = some b' → ¬ RuleMatches b' path) :
    serveBackends l path = Response.proxied b.url := by
  induction l generalizing i with
  | nil => simp at hb
  | cons b0 rest ih =>
    cases i with
    | zero =>
      simp at hb
      subst hb
      exact serveBackends_cons_match b0 rest path hm
    | succ k =>
      have h0 : ¬ RuleMatches b0 path := hfirst 0 b0 (Nat.succ_pos k) (by simp)
      rw [serveBackends_cons_skip b0 rest path h0]
      refine ih k (by simpa using hb) ?_
      intro j b' hj hb'
      exact hfirst (j + 1) b' (Nat.succ_lt_succ hj) (by simpa using hb')

theorem serveBackends_none (l : List backend) (path : String)
    (h : ∀ b ∈ l, ¬ RuleMatches b path) : serveBackends l path = Response.noResponse := by
  induction l with
  | nil => rfl
  | cons b0 rest ih =>
    rw [serveBackends_cons_skip b0 rest path (h b0 (by simp))]
    exact ih (fun b hb => h b (by simp [hb]))

theorem serveBackends_proxied (l : List backend) (path : String) (u : URL)
    (h : serveBackends l path = Response.proxied u) :
    ∃ (i : Nat) (b : backend), l[i]? = some b ∧ RuleMatches b path ∧ u = b.url ∧
      ∀ (j : Nat) (b' : backend), j < i → l[j]? = some b' → ¬ RuleMatches b' path := by
  induction l with
  | nil => simp [serveBackends] at h
  | cons b0 rest ih =>
    by_cases hm : RuleMatches b0 path
    · rw [serveBackends_cons_match b0 rest path hm] at h
      refine ⟨0, b0, by simp, hm, ?_, ?_⟩
      · exact (Response.proxied.inj h).symm
      · intro j b' hj
        exact absurd hj (Nat.not_lt_zero j)
    · rw [serveBackends_cons_skip b0 rest path hm] at h
      obtain ⟨i, b, hb, hbm, hu, hfirst⟩ := ih h
      refine ⟨i + 1, b, by simpa using hb, hbm, hu, ?_⟩
      intro j b' hj hb'
      cases j with
      | zero =>
        simp at hb'
        subst hb'
        exact hm
      | succ k => exact hfirst k b' (Nat.lt_of_succ_lt_succ hj) (by simpa using hb')

end server

open server networking in
/-- C1. For every routing table, every request host whose handler lookup (the host
with any port suffix removed) finds an entry, and every request path: the HTTPS handler
proxies to the backend of the first rule, in the stored order, that matches the path
(Exact: the path equals the pattern; Prefix: the path starts with the pattern); a rule
is chosen only when no earlier rule matches; when no rule matches, no backend is chosen.
For the sequence Exact "/x", Prefix "/" the path "/x" selects the first rule and the
path "/x/y" the second. -/
theorem handler_first_matching_rule (s : Server) (host path : String) (res : resource)
    (hres : mapGet s.resources (SplitColonFirst host) = some res) :
    (∀ (i : Nat) (b : backend), res.Backends[i]? = some b → RuleMatches b path →
        (∀ (j : Nat) (b' : backend), j < i → res.Backends[j]? = some b' →
          ¬ RuleMatches b' path) →
        Handler s host path = Response.proxied b.url) ∧
    (∀ u : URL, Handler s host path = Response.proxied u →
        ∃ (i : Nat) (b : backend), res.Backends[i]? = some b ∧ RuleMatches b path ∧
          u = b.url ∧
          ∀ (j : Nat) (b' : backend), j < i → res.Backends[j]? = some b' →
            ¬ RuleMatches b' path) ∧
    ((∀ b ∈ res.Backends, ¬ RuleMatches b path) →
        Handler s host path = Response.noResponse) ∧
    (∀ u1 u2 : URL,
        res.Backends = [{ path := "/x", pathType := PathTypeExact, url := u1 },
                        { path := "/", pathType := PathTypePrefix, url := u2 }] →
        Handler s host "/x" = Response.proxied u1 ∧
        Handler s host "/x/y" = Response.proxied u2) := by
  have hH : ∀ p : String, Handler s host p = serveBackends res.Backends p := by
    intro p
    simp [Handler, hres]
  refine ⟨?_, ?_, ?_, ?_⟩
  · intro i b hb hm hfirst
    rw [hH]
    exact serveBackends_first res.Backends path i b hb hm hfirst
  · intro u hu
    rw [hH] at hu
    exact serveBackends_proxied res.Backends path u hu
  · intro hnone
    rw [hH]
    exact serveBackends_none res.Backends path hnone
  · intro u1 u2 hB
    rw [hH, hH, hB]
    constructor
    · apply serveBackends_cons_match
      exact Or.inl ⟨rfl, rfl⟩
    · rw [serveBackends_cons_skip]
      · apply serveBackends_cons_match
        exact Or.inr ⟨rfl, "x/y", (by decide : "/x/y" = "/" ++ "x/y")⟩
      · intro hm
        rcases hm with ⟨_, h2⟩ | ⟨h1, _⟩
        · exact absurd h2 (by decide : ¬ "/x/y" = "/x")
        · exact absurd h1 (by decide : ¬ PathTypeExact = PathTypePrefix)

open server networking in
/-- Witness of C1: a table with one host and the rules Exact "/x", Prefix "/", a request
with a port in its Host header. -/
theorem handler_first_matching_rule_witness :
    Handler
        { resources :=
            [("shop.example.com",
              { Config := [], Certificates := [],
                Backends :=
                  [{ path := "/x", pathType := PathTypeExact,
                     url := { Scheme := "http", Host := "cart:8080", Path := "" } },
                   { path := "/", pathType := PathTypePrefix,
                     url := { Scheme := "http", Host := "web:80", Path := "" } }] })] }
        "shop.example.com:443" "/x/y"
      = Response.proxied { Scheme := "http", Host := "web:80", Path := "" } :=
  (handler_first_matching_rule
      { resources :=
          [("shop.example.com",
            { Config := [], Certificates := [],
              Backends :=
                [{ path := "/x", pathType := PathTypeExact,
                   url := { Scheme := "http", Host := "cart:8080", Path := "" } },
                 { path := "/", pathType := PathTypePrefix,
                   url := { Scheme := "http", Host := "web:80", Path := "" } }] })] }
      "shop.example.com:443" "/x/y"
      { Config := [], Certificates := [],
        Backends :=
          [{ path := "/x", pathType := PathTypeExact,
             url := { Scheme := "http", Host := "cart:8080", Path := "" } },
           { path := "/", pathType := PathTypePrefix,
             url := { Scheme := "http", Host := "web:80", Path := "" } }] }
      (by decide)).2.2.2
    { Scheme := "http", Host := "cart:8080", Path := "" }
    { Scheme := "http", Host := "web:80", Path := "" } rfl |>.2

/-! ## Certificate selection -/

namespace server

theorem stripWildcards_wild_none (h sn : List Char) (hc : cut '.' sn = none) :
    stripWildcards ('*' :: '.' :: h) sn = ('*' :: '.' :: h, sn, false) := by
  simp [stripWildcards, hc]

theorem stripWildcards_wild_some (h sn a r : List Char) (hc : cut '.' sn = some (a, r)) :
    stripWildcards ('*' :: '.' :: h) sn = stripWildcards h r := by
  simp [stripWildcards, hc]

theorem stripWildcards_plain (host sn : List Char) (hp : ∀ h, host ≠ '*' :: '.' :: h) :
    stripWildcards host sn = (host, sn, true) := by
  unfold stripWildcards
  split
  · exact absurd rfl (hp _)
  · rfl

theorem stripStates_plain (host sn : List Char) (hp : ∀ h, host ≠ '*' :: '.' :: h) :
    stripStates host sn = [] := by
  unfold stripStates
  split
  · exact absurd rfl (hp _)
  · rfl

theorem cut_star_dot (E : List Char) : cut '.' ('*' :: '.' :: E) = some (['*'], E) := by
  have h : ¬ ('*' = '.') := by decide
  simp [cut, h]

/-- Host and server name equal on entry: the loop ends with the two still equal. -/
theorem stripWildcards_diag (n : Nat) :
    ∀ E : List Char, E.length ≤ n → ∃ F, stripWildcards E E = (F, F, true) := by
  induction n using Nat.strong_induction_on with
  | _ n ih =>
    intro E hE
    by_cases hw : ∃ E1, E = '*' :: '.' :: E1
    · obtain ⟨E1, rfl⟩ := hw
      rw [stripWildcards_wild_some E1 _ _ _ (cut_star_dot E1)]
      have hlen : E1.length < n := by
        simp at hE
        omega
      exact ih E1.length hlen E1 (Nat.le_refl _)
    · refine ⟨E, stripWildcards_plain E E ?_⟩
      intro h heq
      exact hw ⟨h, heq⟩

/-- The server name one wildcard level behind the host: the entry is missed. -/
theorem stripWildcards_lag (n : Nat) :
    ∀ E : List Char, E.length ≤ n → Miss (stripWildcards E ('*' :: '.' :: E)) := by
  induction n using Nat.strong_induction_on with
  | _ n ih =>
    intro E hE
    by_cases hw : ∃ E1, E = '*' :: '.' :: E1
    · obtain ⟨E1, rfl⟩ := hw
      rw [stripWildcards_wild_some E1 _ _ _ (cut_star_dot ('*' :: '.' :: E1))]
      have hlen : E1.length < n := by
        simp at hE
        omega
      exact ih E1.length hlen E1 (Nat.le_refl _)
    · have hp : ∀ h, E ≠ '*' :: '.' :: h := fun h heq => hw ⟨h, heq⟩
      rw [stripWildcards_plain E _ hp]
      refine Or.inr ?_
      intro heq
      have := congrArg List.length heq
      simp only [List.length_cons] at this
      omega

/-- After one label of `a.b.D` is gone and the pattern is down to `D`: the entry is
missed. -/
theorem stripWildcards_two_labels (D b : List Char) (hb : '.' ∉ b) :
    Miss (stripWildcards D (b ++ '.' :: D)) := by
  by_cases hw : ∃ D1, D = '*' :: '.' :: D1
  · obtain ⟨D1, rfl⟩ := hw
    rw [stripWildcards_wild_some D1 _ _ _ (cut_append_sep '.' b _ hb)]
    exact stripWildcards_lag D1.length D1 (Nat.le_refl _)
  · have hp : ∀ h, D ≠ '*' :: '.' :: h := fun h heq => hw ⟨h, heq⟩
    rw [stripWildcards_plain D _ hp]
    refine Or.inr ?_
    intro heq
    have := congrArg List.length heq
    simp only [List.length_append, List.length_cons] at this
    omega

/-- The pattern `*.E` against the name `E` itself: the entry is missed, and after each
strip the server name is strictly shorter than the host. -/
theorem stripWildcards_apex (n : Nat) :
    ∀ E : List Char, E.length ≤ n →
      Miss (stripWildcards ('*' :: '.' :: E) E) ∧
      ∀ p ∈ stripStates ('*' :: '.' :: E) E, p.2.length < p.1.length := by
  induction n using Nat.strong_induction_on with
  | _ n ih =>
    intro E hE
    cases hc : cut '.' E with
    | none =>
      rw [stripWildcards_wild_none E E hc]
      refine ⟨Or.inl rfl, ?_⟩
      simp [stripStates, hc]
    | some p =>
      obtain ⟨x, y⟩ := p
      rw [stripWildcards_wild_some E E x y hc]
      have hlen : y.length < E.length := by
        have h1 := (cut_eq_some '.' E x y hc).1
        have h2 := congrArg List.length h1
        simp at h2
        omega
      have hstates : stripStates ('*' :: '.' :: E) E = (E, y) :: stripStates E y := by
        simp [stripStates, hc]
      rw [hstates]
      by_cases hw : ∃ E1, E = '*' :: '.' :: E1
      · obtain ⟨E1, rfl⟩ := hw
        rw [cut_star_dot E1] at hc
        have hy : y = E1 := by
          have := Option.some.inj hc
          exact (congrArg Prod.snd this).symm
        subst hy
        have hlen1 : y.length < n := by
          simp at hE
          omega
        obtain ⟨h1, h2⟩ := ih y.length hlen1 y (Nat.le_refl _)
        refine ⟨h1, ?_⟩
        intro p hp
        rcases List.mem_cons.1 hp with rfl | hp
        · exact hlen
        · exact h2 p hp
      · have hp : ∀ h, E ≠ '*' :: '.' :: h := fun h heq => hw ⟨h, heq⟩
        rw [stripWildcards_plain E _ hp, stripStates_plain E _ hp]
        refine ⟨Or.inr ?_, ?_⟩
        · intro heq
          have := congrArg List.length heq
          simp only at this
          omega
        · intro p hp
          rcases List.mem_cons.1 hp with rfl | hp
          · exact hlen
          · simp at hp

theorem certificateLoop_single_hit (host : String) (cert : Certificate) (serverName : String)
    (F : List Char) (h : stripWildcards host.data serverName.data = (F, F, true)) :
    certificateLoop [(host, cert)] serverName = CertificateResult.certificate cert := by
  simp [certificateLoop, h]

theorem certificateLoop_single_miss (host : String) (cert : Certificate) (serverName : String)
    (h : Miss (stripWildcards host.data serverName.data)) :
    ∃ name, certificateLoop [(host, cert)] serverName =
      CertificateResult.certificateNotFound name := by
  rcases hr : stripWildcards host.data serverName.data with ⟨h1, h2, f⟩
  rw [hr] at h
  cases f with
  | false => exact ⟨String.mk h2, by simp [certificateLoop, hr]⟩
  | true =>
    have hne : h1 ≠ h2 := by
      rcases h with h | h
      · simp at h
      · exact h
    exact ⟨String.mk h2, by simp [certificateLoop, hr, hne]⟩

theorem GetCertificate_single (s : Server)
    (range : List (String × Certificate) → List (String × Certificate))
    (hrange : ∀ m, (range m).Perm m) (serverName host : String) (cert : Certificate)
    (res : resource) (hres : mapGet s.resources (SplitColonFirst serverName) = some res)
    (hcerts : res.Certificates = [(host, cert)]) :
    GetCertificate s range serverName = certificateLoop [(host, cert)] serverName := by
  have h1 : range res.Certificates = [(host, cert)] := by
    have := hrange res.Certificates
    rw [hcerts] at this ⊢
    exact List.perm_singleton.1 this
  simp [GetCertificate, hres, h1]

end server

open server in
/-- Counterexample to C2 as stated: the virtual host of `a.b.example.com` holds the single
entry `*.example.com`, and certificate selection for SNI `a.b.example.com` ends in
certificate-not-found (one label is stripped per `*.` of the pattern, no more). -/
theorem wildcard_two_labels_counterexample :
    GetCertificate
        { resources :=
            [("a.b.example.com",
              { Config := [],
                Certificates := [("*.example.com", { certPEM := "crt", keyPEM := "key" })],
                Backends := [] })] }
        id "a.b.example.com"
      = CertificateResult.certificateNotFound "b.example.com" := by
  decide

open server in
/-- C2, amended. For every domain D and all dot-free labels a and b, when the virtual host
looked up for the requested name holds the single certificate entry `*.D`: certificate
selection returns that certificate for SNI `a.D` (one label stripped), and returns
certificate-not-found for SNI `a.b.D` (the pattern has one `*.`, so only one label is
stripped). -/
theorem wildcard_matches_exactly_one_label (s : Server)
    (range : List (String × Certificate) → List (String × Certificate))
    (hrange : ∀ m, (range m).Perm m) (D a b : String) (cert : Certificate)
    (ha : '.' ∉ a.data) (hb : '.' ∉ b.data) :
    (∀ res : resource,
        mapGet s.resources (SplitColonFirst (a ++ "." ++ D)) = some res →
        res.Certificates = [("*." ++ D, cert)] →
        GetCertificate s range (a ++ "." ++ D) = CertificateResult.certificate cert) ∧
    (∀ res : resource,
        mapGet s.resources (SplitColonFirst (a ++ "." ++ b ++ "." ++ D)) = some res →
        res.Certificates = [("*." ++ D, cert)] →
        ∃ name, GetCertificate s range (a ++ "." ++ b ++ "." ++ D) =
          CertificateResult.certificateNotFound name) := by
  have hpat : ("*." ++ D).data = '*' :: '.' :: D.data := by
    simp [String.data_append]
  constructor
  · intro res hres hcerts
    rw [GetCertificate_single s range hrange _ _ cert res hres hcerts]
    have hsn : (a ++ "." ++ D).data = a.data ++ '.' :: D.data := by
      simp [String.data_append]
    obtain ⟨F, hF⟩ := stripWildcards_diag D.data.length D.data (Nat.le_refl _)
    apply certificateLoop_single_hit _ _ _ F
    rw [hpat, hsn, stripWildcards_wild_some _ _ _ _ (cut_append_sep '.' a.data _ ha)]
    exact hF
  · intro res hres hcerts
    rw [GetCertificate_single s range hrange _ _ cert res hres hcerts]
    have hsn : (a ++ "." ++ b ++ "." ++ D).data = a.data ++ '.' :: (b.data ++ '.' :: D.data) := by
      simp [String.data_append]
    apply certificateLoop_single_miss
    rw [hpat, hsn, stripWildcards_wild_some _ _ _ _ (cut_append_sep '.' a.data _ ha)]
    exact stripWildcards_two_labels D.data b.data hb

open server in
/-- Witness of C2 amended: hosts `a.example.com` and `a.b.example.com`, each holding the
single entry `*.example.com`. -/
theorem wildcard_matches_exactly_one_label_witness :
    GetCertificate
        { resources :=
            [("a.example.com",
              { Config := [],
                Certificates := [("*.example.com", { certPEM := "crt", keyPEM := "key" })],
                Backends := [] }),
             ("a.b.example.com",
              { Config := [],
                Certificates := [("*.example.com", { certPEM := "crt", keyPEM := "key" })],
                Backends := [] })] }
        id "a.example.com"
      = CertificateResult.certificate { certPEM := "crt", keyPEM := "key" } :=
  (wildcard_matches_exactly_one_label
      { resources :=
          [("a.example.com",
            { Config := [],
              Certificates := [("*.example.com", { certPEM := "crt", keyPEM := "key" })],
              Backends := [] }),
           ("a.b.example.com",
            { Config := [],
              Certificates := [("*.example.com", { certPEM := "crt", keyPEM := "key" })],
              Backends := [] })] }
      id (fun m => List.Perm.refl m) "example.com" "a" "b"
      { certPEM := "crt", keyPEM := "key" } (by decide) (by decide)).1
    { Config := [],
      Certificates := [("*.example.com", { certPEM := "crt", keyPEM := "key" })],
      Backends := [] }
    (by decide) (by decide)

open server in
/-- C8. A wildcard pattern never matches its own apex: for every string D, when the
virtual host looked up for the requested name holds the single certificate entry `*.D`,
certificate selection for SNI D returns the certificate-not-found error and not the
certificate; after each label strip the requested name is strictly shorter than the
remaining pattern. -/
theorem wildcard_never_matches_apex (s : Server)
    (range : List (String × Certificate) → List (String × Certificate))
    (hrange : ∀ m, (range m).Perm m) (D : String) (cert : Certificate) (res : resource)
    (hres : mapGet s.resources (SplitColonFirst D) = some res)
    (hcerts : res.Certificates = [("*." ++ D, cert)]) :
    (∃ name, GetCertificate s range D = CertificateResult.certificateNotFound name) ∧
    GetCertificate s range D ≠ CertificateResult.certificate cert ∧
    ∀ p ∈ stripStates ("*." ++ D).data D.data, p.2.length < p.1.length := by
  have hpat : ("*." ++ D).data = '*' :: '.' :: D.data := by
    simp [String.data_append]
  obtain ⟨hmiss, hstates⟩ := stripWildcards_apex D.data.length D.data (Nat.le_refl _)
  have hnf : ∃ name, GetCertificate s range D = CertificateResult.certificateNotFound name := by
    rw [GetCertificate_single s range hrange _ _ cert res hres hcerts]
    apply certificateLoop_single_miss
    rw [hpat]
    exact hmiss
  refine ⟨hnf, ?_, ?_⟩
  · obtain ⟨name, hname⟩ := hnf
    rw [hname]
    exact fun h => CertificateResult.noConfusion h
  · rw [hpat]
    exact hstates

open server in
/-- Witness of C8: the host `example.com` holding the single entry `*.example.com`. -/
theorem wildcard_never_matches_apex_witness :
    GetCertificate
        { resources :=
            [("example.com",
              { Config := [],
                Certificates := [("*.example.com", { certPEM := "crt", keyPEM := "key" })],
                Backends := [] })] }
        id "example.com"
      ≠ CertificateResult.certificate { certPEM := "crt", keyPEM := "key" } :=
  (wildcard_never_matches_apex
      { resources :=
          [("example.com",
            { Config := [],
              Certificates := [("*.example.com", { certPEM := "crt", keyPEM := "key" })],
              Backends := [] })] }
      id (fun m => List.Perm.refl m) "example.com" { certPEM := "crt", keyPEM := "key" }
      { Config := [],
        Certificates := [("*.example.com", { certPEM := "crt", keyPEM := "key" })],
        Backends := [] }
      (by decide) (by decide)).2.1

open server in
/-- C9, the code at the failing input. The certificate set holds `*.other.org` and the
exact entry `a.example.com`; the SNI is `a.example.com`. Traversed with the exact entry
first, selection returns its certificate; traversed with the wildcard entry first, the
wildcard step has already overwritten `hello.ServerName` with `example.com`, the exact
entry no longer compares equal, and selection ends in certificate-not-found. -/
theorem certificate_order_changes_outcome :
    GetCertificate
        { resources :=
            [("a.example.com",
              { Config := [],
                Certificates :=
                  [("*.other.org", { certPEM := "crt1", keyPEM := "key1" }),
                   ("a.example.com", { certPEM := "crt2", keyPEM := "key2" })],
                Backends := [] })] }
        id "a.example.com"
      = CertificateResult.certificateNotFound "example.com" ∧
    GetCertificate
        { resources :=
            [("a.example.com",
              { Config := [],
                Certificates :=
                  [("*.other.org", { certPEM := "crt1", keyPEM := "key1" }),
                   ("a.example.com", { certPEM := "crt2", keyPEM := "key2" })],
                Backends := [] })] }
        List.reverse "a.example.com"
      = CertificateResult.certificate { certPEM := "crt2", keyPEM := "key2" } := by
  constructor <;> decide

/-! ## The routing table after `Update` -/

namespace server

open networking

theorem initBackends_fold (parse : String → Option URL) (paths : List HTTPIngressPath)
    (acc : List backend)
    (h : ∀ p ∈ paths, (p.Backend.Service.isSome && p.PathType.isSome) = true) :
    paths.foldlM (initBackend parse) acc = some (acc ++ paths.filterMap (backendOf parse)) := by
  induction paths generalizing acc with
  | nil => simp
  | cons p ps ih =>
    have hp := h p (by simp)
    have hps : ∀ q ∈ ps, (q.Backend.Service.isSome && q.PathType.isSome) = true :=
      fun q hq => h q (by simp [hq])
    rw [List.foldlM_cons]
    cases hs : p.Backend.Service with
    | none => simp [hs] at hp
    | some service =>
      cases ht : p.PathType with
      | none => simp [ht] at hp
      | some pt =>
        cases hu : parse (link service) with
        | none =>
          simp [initBackend, backendOf, hs, ht, hu, ih acc hps]
        | some u =>
          simp [initBackend, backendOf, hs, ht, hu, ih _ hps]

theorem Update_fold_aux (parse : String → Option URL) (payload : watcher.Payload)
    (ips : List watcher.IngressPayload) (s : Server) :
    ips.foldlM
        (fun s ingressPayload =>
          ingressPayload.Ingress.Spec.Rules.foldlM (updateRule parse payload ingressPayload) s) s
      = (ips.flatMap (fun ingressPayload =>
            ingressPayload.Ingress.Spec.Rules.map (fun rule => (ingressPayload, rule)))).foldlM
          (fun s x => updateRule parse payload x.1 s x.2) s := by
  induction ips generalizing s with
  | nil => simp
  | cons ip ips ih =>
    rw [List.foldlM_cons, List.flatMap_cons, List.foldlM_append, List.foldlM_map]
    cases h : List.foldlM (updateRule parse payload ip) s ip.Ingress.Spec.Rules with
    | none => simp
    | some s1 => simp [ih s1]

theorem stepRule_some (parse : String → Option URL) (payload : watcher.Payload) (s s' : Server)
    (x : watcher.IngressPayload × IngressRule) (h : stepRule parse payload s x = some s') :
    ∃ r, newResource parse payload x.1 x.2 = some r ∧
      s'.resources = mapSet s.resources x.2.Host r := by
  unfold stepRule updateRule at h
  cases hr : newResource parse payload x.1 x.2 with
  | none => simp [hr] at h
  | some r =>
    simp [hr] at h
    exact ⟨r, rfl, by rw [← h]⟩

theorem fold_get_cases (parse : String → Option URL) (payload : watcher.Payload)
    (l : List (watcher.IngressPayload × IngressRule)) (s s' : Server)
    (h : l.foldlM (stepRule parse payload) s = some s') (host : String) :
    mapGet s'.resources host = mapGet s.resources host ∨
      ∃ x ∈ l, x.2.Host = host ∧ ∃ r, newResource parse payload x.1 x.2 = some r ∧
        mapGet s'.resources host = some r := by
  induction l generalizing s with
  | nil =>
    simp at h
    subst h
    exact Or.inl rfl
  | cons x l ih =>
    rw [List.foldlM_cons] at h
    cases hx : stepRule parse payload s x with
    | none => simp [hx] at h
    | some s1 =>
      simp [hx] at h
      obtain ⟨r, hr, hres⟩ := stepRule_some parse payload s s1 x hx
      rcases ih s1 h with h1 | ⟨y, hy, hyh, r', hr', hget⟩
      · by_cases hh : x.2.Host = host
        · refine Or.inr ⟨x, by simp, hh, r, hr, ?_⟩
          rw [h1, hres, hh, mapGet_mapSet_same]
        · refine Or.inl ?_
          rw [h1, hres, mapGet_mapSet_other _ _ _ _ hh]
      · exact Or.inr ⟨y, by simp [hy], hyh, r', hr', hget⟩

theorem fold_get_other (parse : String → Option URL) (payload : watcher.Payload)
    (l : List (watcher.IngressPayload × IngressRule)) (s s' : Server)
    (h : l.foldlM (stepRule parse payload) s = some s') (host : String)
    (hne : ∀ x ∈ l, x.2.Host ≠ host) :
    mapGet s'.resources host = mapGet s.resources host := by
  rcases fold_get_cases parse payload l s s' h host with h1 | ⟨x, hx, hxh, _⟩
  · exact h1
  · exact absurd hxh (hne x hx)

theorem fold_get_last (parse : String → Option URL) (payload : watcher.Payload)
    (pre post : List (watcher.IngressPayload × IngressRule))
    (x : watcher.IngressPayload × IngressRule) (s s' : Server)
    (h : (pre ++ x :: post).foldlM (stepRule parse payload) s = some s')
    (hlast : ∀ y ∈ post, y.2.Host ≠ x.2.Host) :
    ∃ r, newResource parse payload x.1 x.2 = some r ∧
      mapGet s'.resources x.2.Host = some r := by
  rw [List.foldlM_append] at h
  cases hpre : List.foldlM (stepRule parse payload) s pre with
  | none => simp [hpre] at h
  | some s1 =>
    simp [hpre] at h
    cases hx : stepRule parse payload s1 x with
    | none => simp [hx] at h
    | some s2 =>
      simp [hx] at h
      obtain ⟨r, hr, hres⟩ := stepRule_some parse payload s1 s2 x hx
      refine ⟨r, hr, ?_⟩
      rw [fold_get_other parse payload post s2 s' h x.2.Host hlast, hres, mapGet_mapSet_same]

theorem fold_get_isSome (parse : String → Option URL) (payload : watcher.Payload)
    (l : List (watcher.IngressPayload × IngressRule)) (s s' : Server)
    (h : l.foldlM (stepRule parse payload) s = some s') (host : String) :
    (mapGet s'.resources host).isSome = true ↔
      ((mapGet s.resources host).isSome = true ∨ host ∈ l.map (fun x => x.2.Host)) := by
  induction l generalizing s with
  | nil =>
    simp at h
    subst h
    simp
  | cons x l ih =>
    rw [List.foldlM_cons] at h
    cases hx : stepRule parse payload s x with
    | none => simp [hx] at h
    | some s1 =>
      simp [hx] at h
      obtain ⟨r, hr, hres⟩ := stepRule_some parse payload s s1 x hx
      rw [ih s1 h, hres]
      by_cases hh : x.2.Host = host
      · subst hh
        simp [mapGet_mapSet_same]
      · rw [mapGet_mapSet_other _ _ _ _ hh]
        simp only [List.map_cons, List.mem_cons]
        constructor
        · rintro (h1 | h1)
          · exact Or.inl h1
          · exact Or.inr (Or.inr h1)
        · rintro (h1 | h1 | h1)
          · exact Or.inl h1
          · exact absurd h1.symm hh
          · exact Or.inr h1

theorem newResource_of_noNil (parse : String → Option URL) (payload : watcher.Payload)
    (ip : watcher.IngressPayload) (rule : IngressRule) (h : noNil rule = true) :
    ∃ http r, rule.HTTP = some http ∧ newResource parse payload ip rule = some r ∧
      r.Backends = http.Paths.filterMap (backendOf parse) ∧
      r.Certificates = initCerts payload.TLSCertificates ip.Ingress.Spec.TLS := by
  unfold noNil at h
  cases hh : rule.HTTP with
  | none => simp [hh] at h
  | some http =>
    simp only [hh, List.all_eq_true] at h
    have hfold := initBackends_fold parse http.Paths [] h
    rw [List.nil_append] at hfold
    refine ⟨http,
      { Config := ip.Ingress.Annotations.foldl (fun c kv => mapSet c kv.1 kv.2) []
        Certificates := initCerts payload.TLSCertificates ip.Ingress.Spec.TLS
        Backends := http.Paths.filterMap (backendOf parse) }, rfl, ?_, rfl, rfl⟩
    simp only [newResource, hh, hfold]

theorem fold_total (parse : String → Option URL) (payload : watcher.Payload)
    (l : List (watcher.IngressPayload × IngressRule)) (s : Server)
    (h : ∀ x ∈ l, noNil x.2 = true) : ∃ s', l.foldlM (stepRule parse payload) s = some s' := by
  induction l generalizing s with
  | nil => exact ⟨s, by simp⟩
  | cons x l ih =>
    obtain ⟨http, r, _, hr, _⟩ := newResource_of_noNil parse payload x.1 x.2 (h x (by simp))
    have hx : stepRule parse payload s x = some { resources := mapSet s.resources x.2.Host r } := by
      simp [stepRule, updateRule, hr]
    obtain ⟨s', hs'⟩ := ih { resources := mapSet s.resources x.2.Host r }
      (fun y hy => h y (by simp [hy]))
    exact ⟨s', by rw [List.foldlM_cons, hx]; simpa using hs'⟩

theorem Update_eq_fold (parse : String → Option URL) (s : Server) (payload : watcher.Payload) :
    Update parse s payload = (visited payload).foldlM (stepRule parse payload) s :=
  Update_fold_aux parse payload payload.Ingresses s

theorem exists_last_occurrence {α : Type} (l : List α) (p : α → Prop) (h : ∃ x ∈ l, p x) :
    ∃ pre x post, l = pre ++ x :: post ∧ p x ∧ ∀ y ∈ post, ¬ p y := by
  induction l with
  | nil => simp at h
  | cons a l ih =>
    by_cases hl : ∃ x ∈ l, p x
    · obtain ⟨pre, x, post, hl', hx, hpost⟩ := ih hl
      exact ⟨a :: pre, x, post, by simp [hl'], hx, hpost⟩
    · obtain ⟨x, hx, hpx⟩ := h
      rcases List.mem_cons.1 hx with rfl | hx
      · refine ⟨[], x, l, rfl, hpx, ?_⟩
        intro y hy hpy
        exact hl ⟨y, hy, hpy⟩
      · exact absurd ⟨x, hx, hpx⟩ hl

end server

open server networking

namespace server

open networking

theorem observableFrom_head (parse : String → Option URL) (payload : watcher.Payload)
    (l : List (watcher.IngressPayload × IngressRule)) (s : Server) :
    s ∈ observableFrom parse payload s l := by
  cases l with
  | nil => simp [observableFrom]
  | cons x l =>
    obtain ⟨ip, rule⟩ := x
    simp [observableFrom]

theorem observableFrom_applied (parse : String → Option URL) (payload : watcher.Payload)
    (l : List (watcher.IngressPayload × IngressRule)) (s t : Server)
    (ht : t ∈ observableFrom parse payload s l) :
    ∃ pre post, l = pre ++ post ∧ pre.foldlM (stepRule parse payload) s = some t := by
  induction l generalizing s with
  | nil =>
    simp [observableFrom] at ht
    subst ht
    exact ⟨[], [], rfl, by simp⟩
  | cons x l ih =>
    obtain ⟨ip, rule⟩ := x
    simp only [observableFrom, List.mem_cons] at ht
    rcases ht with rfl | ht
    · exact ⟨[], (ip, rule) :: l, rfl, by simp⟩
    · cases hx : updateRule parse payload ip s rule with
      | none => simp [hx] at ht
      | some s1 =>
        simp only [hx] at ht
        obtain ⟨pre, post, hl, hfold⟩ := ih s1 ht
        refine ⟨(ip, rule) :: pre, post, by simp [hl], ?_⟩
        rw [List.foldlM_cons]
        have : stepRule parse payload s (ip, rule) = some s1 := hx
        rw [this]
        simpa using hfold

theorem observableFrom_final (parse : String → Option URL) (payload : watcher.Payload)
    (l : List (watcher.IngressPayload × IngressRule)) (s s' : Server)
    (h : l.foldlM (stepRule parse payload) s = some s') :
    s' ∈ observableFrom parse payload s l := by
  induction l generalizing s with
  | nil =>
    simp at h
    subst h
    simp [observableFrom]
  | cons x l ih =>
    obtain ⟨ip, rule⟩ := x
    rw [List.foldlM_cons] at h
    cases hx : stepRule parse payload s (ip, rule) with
    | none => simp [hx] at h
    | some s1 =>
      simp [hx] at h
      have hx' : updateRule parse payload ip s rule = some s1 := hx
      simp only [observableFrom, hx', List.mem_cons]
      exact Or.inr (ih s1 h)

end server

/-- C4, amended. Publication is atomic per host, not per snapshot. For every old table
and every payload, the table values a locked reader can see while `Update` runs start
with the old table and, when `Update` returns, include the table it leaves; in each of
them the entry of every host is either that host's entry in the old table or the whole
resource `Update` built for one rule of the payload naming that host. Entries change
one rule at a time, so a reader can see some hosts already new and others still old. -/
theorem update_publishes_host_by_host (parse : String → Option URL) (s : Server)
    (payload : watcher.Payload) :
    s ∈ observable parse s payload ∧
    (∀ s', Update parse s payload = some s' → s' ∈ observable parse s payload) ∧
    ∀ t ∈ observable parse s payload, ∀ host : String,
      mapGet t.resources host = mapGet s.resources host ∨
        ∃ x ∈ visited payload, x.2.Host = host ∧
          ∃ r, newResource parse payload x.1 x.2 = some r ∧
            mapGet t.resources host = some r := by
  refine ⟨observableFrom_head parse payload _ s, ?_, ?_⟩
  · intro s' hs'
    rw [Update_eq_fold] at hs'
    exact observableFrom_final parse payload _ s s' hs'
  · intro t ht host
    obtain ⟨pre, post, hl, hfold⟩ := observableFrom_applied parse payload _ s t ht
    rcases fold_get_cases parse payload pre s t hfold host with h1 | ⟨x, hx, hrest⟩
    · exact Or.inl h1
    · refine Or.inr ⟨x, ?_, hrest⟩
      rw [hl]
      exact List.mem_append_left post hx


/-- Counterexample to C4 as stated: old table with hosts `a.example.com` and
`b.example.com`, payload with a new rule for each. The second observable table carries
the new data of `a.example.com` and the old data of `b.example.com`: it is neither the
old table nor the table `Update` leaves. -/
theorem update_mixed_state_counterexample :
    observable parseServiceLink
        { resources :=
            [("a.example.com", hostWith [backendTo "/" PathTypePrefix "old-a:80"]),
             ("b.example.com", hostWith [backendTo "/" PathTypePrefix "old-b:80"])] }
        (payloadOf [ingressOf
          [ruleFor "a.example.com" [pathTo "/" PathTypePrefix "new-a" 80],
           ruleFor "b.example.com" [pathTo "/" PathTypePrefix "new-b" 80]]])
      =
      [{ resources :=
            [("a.example.com", hostWith [backendTo "/" PathTypePrefix "old-a:80"]),
             ("b.example.com", hostWith [backendTo "/" PathTypePrefix "old-b:80"])] },
       { resources :=
            [("a.example.com", hostWith [backendTo "/" PathTypePrefix "new-a:80"]),
             ("b.example.com", hostWith [backendTo "/" PathTypePrefix "old-b:80"])] },
       { resources :=
            [("a.example.com", hostWith [backendTo "/" PathTypePrefix "new-a:80"]),
             ("b.example.com", hostWith [backendTo "/" PathTypePrefix "new-b:80"])] }] ∧
    Update parseServiceLink
        { resources :=
            [("a.example.com", hostWith [backendTo "/" PathTypePrefix "old-a:80"]),
             ("b.example.com", hostWith [backendTo "/" PathTypePrefix "old-b:80"])] }
        (payloadOf [ingressOf
          [ruleFor "a.example.com" [pathTo "/" PathTypePrefix "new-a" 80],
           ruleFor "b.example.com" [pathTo "/" PathTypePrefix "new-b" 80]]])
      = some
        { resources :=
            [("a.example.com", hostWith [backendTo "/" PathTypePrefix "new-a:80"]),
             ("b.example.com", hostWith [backendTo "/" PathTypePrefix "new-b:80"])] } := by
  constructor <;> decide

/-- Counterexample to C3 as stated: the table holds `old.example.com`, the payload names
only `new.example.com`. After `Update` the table holds both hosts and a request for
`old.example.com` is still proxied to the old backend. -/
theorem update_keeps_old_host_counterexample :
    Update parseServiceLink
        { resources := [("old.example.com", hostWith [backendTo "/" PathTypePrefix "old:80"])] }
        (payloadOf [ingressOf [ruleFor "new.example.com" [pathTo "/" PathTypePrefix "new" 80]]])
      = some
        { resources :=
            [("old.example.com", hostWith [backendTo "/" PathTypePrefix "old:80"]),
             ("new.example.com", hostWith [backendTo "/" PathTypePrefix "new:80"])] } ∧
    Handler
        { resources :=
            [("old.example.com", hostWith [backendTo "/" PathTypePrefix "old:80"]),
             ("new.example.com", hostWith [backendTo "/" PathTypePrefix "new:80"])] }
        "old.example.com" "/"
      = Response.proxied { Scheme := "http", Host := "old:80", Path := "" } := by
  constructor <;> decide

/-- C3, amended. `Update` only adds or overwrites entries. For every table and every
payload whose rules meet no nil pointer, `Update` returns; the hosts of the table
afterwards are the hosts it had before together with the hosts of the payload's rules;
the entry of a host that does not appear in the payload is unchanged, and a request
for such a host is answered as before. -/
theorem update_adds_or_overwrites (parse : String → Option URL) (s : Server)
    (payload : watcher.Payload) (hwf : ∀ x ∈ visited payload, noNil x.2 = true) :
    ∃ s', Update parse s payload = some s' ∧
      (∀ host : String,
        (mapGet s'.resources host).isSome = true ↔
          ((mapGet s.resources host).isSome = true ∨
            host ∈ (visited payload).map (fun x => x.2.Host))) ∧
      (∀ host : String, host ∉ (visited payload).map (fun x => x.2.Host) →
        mapGet s'.resources host = mapGet s.resources host) ∧
      (∀ reqHost path : String,
        SplitColonFirst reqHost ∉ (visited payload).map (fun x => x.2.Host) →
        Handler s' reqHost path = Handler s reqHost path) := by
  obtain ⟨s', hs'⟩ := fold_total parse payload (visited payload) s hwf
  have hother : ∀ host : String, host ∉ (visited payload).map (fun x => x.2.Host) →
      mapGet s'.resources host = mapGet s.resources host := by
    intro host hhost
    apply fold_get_other parse payload (visited payload) s s' hs' host
    intro x hx heq
    exact hhost (List.mem_map.2 ⟨x, hx, heq⟩)
  refine ⟨s', by rw [Update_eq_fold]; exact hs', ?_, hother, ?_⟩
  · intro host
    exact fold_get_isSome parse payload (visited payload) s s' hs' host
  · intro reqHost path hreq
    simp only [Handler, hother _ hreq]

/-- Witness of C3 amended: the table holds `old.example.com`, the payload names
`new.example.com`. -/
theorem update_adds_or_overwrites_witness :
    ∃ s', Update parseServiceLink
        { resources := [("old.example.com", hostWith [backendTo "/" PathTypePrefix "old:80"])] }
        (payloadOf [ingressOf [ruleFor "new.example.com" [pathTo "/" PathTypePrefix "new" 80]]])
        = some s' ∧
      mapGet s'.resources "old.example.com"
        = some (hostWith [backendTo "/" PathTypePrefix "old:80"]) := by
  obtain ⟨s', h1, _, h3, _⟩ := update_adds_or_overwrites parseServiceLink
    { resources := [("old.example.com", hostWith [backendTo "/" PathTypePrefix "old:80"])] }
    (payloadOf [ingressOf [ruleFor "new.example.com" [pathTo "/" PathTypePrefix "new" 80]]])
    (by decide)
  exact ⟨s', h1, by rw [h3 "old.example.com" (by decide)]; decide⟩

/-- Counterexample to C6 as stated: two rules of the payload name `h.example.com`, the
first with path `/a`, the second with path `/b`. After `Update` the backend sequence of
the host holds the entry for `/b` only. -/
theorem update_same_host_counterexample :
    Update parseServiceLink New
        (payloadOf [ingressOf
          [ruleFor "h.example.com" [pathTo "/a" PathTypePrefix "svc-a" 80],
           ruleFor "h.example.com" [pathTo "/b" PathTypePrefix "svc-b" 80]]])
      = some
        { resources :=
            [("h.example.com", hostWith [backendTo "/b" PathTypePrefix "svc-b:80"])] } := by
  decide

/-- C6, amended. For every payload whose rules meet no nil pointer and every host h
appearing in its rules, `Update` returns and the table then holds one virtual host for
h, built from the last rule of the payload (in visiting order) whose host is h: its
backend sequence contains, in source order, one entry (pattern, match kind, parsed URL)
for every path of that rule whose link `http://name:port` parses. Earlier rules naming
the same host are overwritten. -/
theorem update_last_rule_wins (parse : String → Option URL) (s : Server)
    (payload : watcher.Payload) (hwf : ∀ x ∈ visited payload, noNil x.2 = true) :
    ∃ s', Update parse s payload = some s' ∧
      ∀ host ∈ (visited payload).map (fun x => x.2.Host),
        ∃ pre ingressPayload rule post http r,
          visited payload = pre ++ (ingressPayload, rule) :: post ∧
          rule.Host = host ∧ (∀ y ∈ post, y.2.Host ≠ host) ∧
          rule.HTTP = some http ∧
          mapGet s'.resources host = some r ∧
          r.Backends = http.Paths.filterMap (backendOf parse) := by
  obtain ⟨s', hs'⟩ := fold_total parse payload (visited payload) s hwf
  refine ⟨s', by rw [Update_eq_fold]; exact hs', ?_⟩
  intro host hhost
  obtain ⟨x0, hx0, hx0h⟩ := List.mem_map.1 hhost
  obtain ⟨pre, x, post, hl, hx, hpost⟩ :=
    exists_last_occurrence (visited payload) (fun y => y.2.Host = host) ⟨x0, hx0, hx0h⟩
  have hxmem : x ∈ visited payload := by
    rw [hl]
    simp
  obtain ⟨http, r, hhttp, hr, hB, _⟩ := newResource_of_noNil parse payload x.1 x.2 (hwf x hxmem)
  have hpost' : ∀ y ∈ post, y.2.Host ≠ x.2.Host := by
    intro y hy
    rw [hx]
    exact hpost y hy
  rw [hl] at hs'
  obtain ⟨r', hr', hget⟩ := fold_get_last parse payload pre post x s s' hs' hpost'
  rw [hr] at hr'
  have hrr : r = r' := Option.some.inj hr'
  subst hrr
  refine ⟨pre, x.1, x.2, post, http, r, hl, hx, hpost, hhttp, ?_, hB⟩
  rw [← hx]
  exact hget

/-- Witness of C6 amended: two rules naming `h.example.com`. -/
theorem update_last_rule_wins_witness :
    ∃ s', Update parseServiceLink New
        (payloadOf [ingressOf
          [ruleFor "h.example.com" [pathTo "/a" PathTypePrefix "svc-a" 80],
           ruleFor "h.example.com" [pathTo "/b" PathTypePrefix "svc-b" 80]]]) = some s' ∧
      ∃ r, mapGet s'.resources "h.example.com" = some r := by
  obtain ⟨s', h1, h2⟩ := update_last_rule_wins parseServiceLink New
    (payloadOf [ingressOf
      [ruleFor "h.example.com" [pathTo "/a" PathTypePrefix "svc-a" 80],
       ruleFor "h.example.com" [pathTo "/b" PathTypePrefix "svc-b" 80]]])
    (by decide)
  obtain ⟨_, _, _, _, _, r, _, _, _, _, hr, _⟩ := h2 "h.example.com" (by decide)
  exact ⟨s', h1, r, hr⟩

namespace server

open networking

theorem link_eq (name portName : String) (n : Int) :
    link { Name := name, Port := { Name := portName, Number := n } }
      = "http://" ++ name ++ ":" ++ toString n := by
  have h : "http" ++ "://" = "http://" := by decide
  simp only [link, h]

theorem Handler_single_exact (host reqHost p q : String) (u : URL)
    (cfg : List (String × String)) (certs : List (String × Certificate))
    (hkey : SplitColonFirst reqHost = host) :
    Handler
        { resources :=
            [(host, { Config := cfg, Certificates := certs,
                      Backends := [{ path := p, pathType := PathTypeExact, url := u }] })] }
        reqHost q
      = if q = p then Response.proxied u else Response.noResponse := by
  have hne : ¬ (PathTypeExact = PathTypePrefix) := by decide
  by_cases hq : q = p
  · simp [Handler, hkey, mapGet, serveBackends, hq]
  · simp [Handler, hkey, mapGet, serveBackends, hq, hne]

end server

/-- C7. Build-then-route round trip. For every host h (a host name, which holds no colon:
in the Host header a colon starts the port suffix), path p, service name svc and port n
that are valid, meaning the link `http://svc:n` parses to a URL u: `Update` on the empty
table with a payload of one ingress with a single rule for h, one Exact path p to svc
port n, and no TLS, returns a table on which a request for host h, with or without a
`:port` suffix in the Host header, and path p is proxied to u, and a request for host h
with any path q different from p selects no backend. -/
theorem build_then_route (parse : String → Option URL) (h p svc : String) (n : Int) (u : URL)
    (ns portName : String) (annotations : List (String × String))
    (defaultBackend : Option IngressBackend)
    (servicePorts : List (String × List (String × Int)))
    (tlsCertificates : List (String × Certificate))
    (hh : ':' ∉ h.data)
    (hu : parse ("http://" ++ svc ++ ":" ++ toString n) = some u) :
    ∃ s', Update parse New
        { Ingresses :=
            [{ Ingress :=
                 { Namespace := ns, Annotations := annotations,
                   Spec :=
                     { DefaultBackend := defaultBackend, TLS := [],
                       Rules :=
                         [{ Host := h,
                            HTTP := some
                              { Paths :=
                                  [{ Path := p, PathType := some PathTypeExact,
                                     Backend :=
                                       { Service := some
                                           { Name := svc,
                                             Port := { Name := portName, Number := n } } } }] } }] } },
               ServicePorts := servicePorts }],
          TLSCertificates := tlsCertificates } = some s' ∧
      Handler s' h p = Response.proxied u ∧
      (∀ port : String, Handler s' (h ++ ":" ++ port) p = Response.proxied u) ∧
      (∀ q : String, q ≠ p →
        Handler s' h q = Response.noResponse ∧
        ∀ port : String, Handler s' (h ++ ":" ++ port) q = Response.noResponse) := by
  have hlink := link_eq svc portName n
  refine ⟨{ resources :=
      [(h, { Config := annotations.foldl (fun c kv => mapSet c kv.1 kv.2) [],
             Certificates := [],
             Backends := [{ path := p, pathType := PathTypeExact, url := u }] })] }, ?_, ?_, ?_, ?_⟩
  · simp [Update, updateRule, newResource, initBackend, initCerts, hlink, hu, New, mapSet]
  · rw [Handler_single_exact h h p p u _ _ (SplitColonFirst_of_no_colon h hh)]
    simp
  · intro port
    rw [Handler_single_exact h _ p p u _ _ (SplitColonFirst_append_colon h port hh)]
    simp
  · intro q hq
    constructor
    · rw [Handler_single_exact h h p q u _ _ (SplitColonFirst_of_no_colon h hh)]
      simp [hq]
    · intro port
      rw [Handler_single_exact h _ p q u _ _ (SplitColonFirst_append_colon h port hh)]
      simp [hq]

/-- Witness of C7: host `h.example.com`, path `/p`, service `svc`, port 8080. -/
theorem build_then_route_witness :
    ∃ s', Update parseServiceLink New
        (payloadOf [ingressOf [ruleFor "h.example.com" [pathTo "/p" PathTypeExact "svc" 8080]]])
        = some s' ∧
      Handler s' "h.example.com" "/p"
        = Response.proxied { Scheme := "http", Host := "svc:8080", Path := "" } ∧
      Handler s' "h.example.com:443" "/p"
        = Response.proxied { Scheme := "http", Host := "svc:8080", Path := "" } ∧
      Handler s' "h.example.com" "/other" = Response.noResponse := by
  obtain ⟨s', h1, h2, h3, h4⟩ := build_then_route parseServiceLink "h.example.com" "/p" "svc" 8080
    { Scheme := "http", Host := "svc:8080", Path := "" } "default" "" [] none [] []
    (by decide) (by decide)
  exact ⟨s', h1, h2, h3 "443", (h4 "/other" (by decide)).1⟩

namespace watcher

open networking

theorem addBackend_Ingress (w : Listers) (ip ip' : IngressPayload) (b : IngressBackend)
    (e : Bool) (h : addBackend w ip b = some (ip', e)) : ip'.Ingress = ip.Ingress := by
  unfold addBackend at h
  cases hs : b.Service with
  | none => simp [hs] at h
  | some service =>
    simp only [hs] at h
    cases hg : w.getService ip.Ingress.Namespace service.Name with
    | none =>
      simp [hg] at h
      rw [← h.1]
    | some svc =>
      simp [hg] at h
      rw [← h.1]

theorem onChangeRule_fold (w : Listers) (rules : List IngressRule) (ip : IngressPayload)
    (h : ∀ r ∈ rules, r.HTTP ≠ none) : rules.foldlM (onChangeRule w) ip = some ip := by
  induction rules with
  | nil => simp
  | cons r rules ih =>
    have hr : r.HTTP ≠ none := h r (by simp)
    rw [List.foldlM_cons]
    have : onChangeRule w ip r = some ip := by simp [onChangeRule, hr]
    rw [this]
    simpa using ih (fun q hq => h q (by simp [hq]))

theorem onChangeIngress_ok (x509KeyPair : String → String → Option Certificate) (w : Listers)
    (payload : Payload) (ingress : Ingress) (hd : defaultOk ingress = true)
    (hr : ∀ r ∈ ingress.Spec.Rules, r.HTTP ≠ none) :
    ∃ ip certs, onChangeIngress x509KeyPair w payload ingress
        = some { Ingresses := payload.Ingresses ++ [ip], TLSCertificates := certs } ∧
      ip.Ingress = ingress := by
  unfold defaultOk at hd
  unfold onChangeIngress
  cases hdb : ingress.Spec.DefaultBackend with
  | none =>
    simp only [hdb]
    rw [onChangeRule_fold w _ _ hr]
    exact ⟨_, _, rfl, rfl⟩
  | some b =>
    simp only [hdb] at hd
    cases hs : b.Service with
    | none => simp [hs] at hd
    | some service =>
      cases hab : addBackend w { Ingress := ingress, ServicePorts := [] } b with
      | none => simp [addBackend, hs] at hab; split at hab <;> simp at hab
      | some p =>
        obtain ⟨ip1, e⟩ := p
        have hI := addBackend_Ingress w _ ip1 b e hab
        simp only [hdb, hab, Option.map_some']
        rw [onChangeRule_fold w _ _ hr]
        exact ⟨ip1, _, rfl, hI⟩

theorem onChange_fold_ok (x509KeyPair : String → String → Option Certificate) (w : Listers)
    (ings : List Ingress) (payload : Payload)
    (hd : ∀ i ∈ ings, defaultOk i = true)
    (hr : ∀ i ∈ ings, ∀ r ∈ i.Spec.Rules, r.HTTP ≠ none) :
    ∃ payload', ings.foldlM (onChangeIngress x509KeyPair w) payload = some payload' ∧
      payload'.Ingresses.map (fun ip => ip.Ingress)
        = payload.Ingresses.map (fun ip => ip.Ingress) ++ ings := by
  induction ings generalizing payload with
  | nil => exact ⟨payload, by simp, by simp⟩
  | cons i ings ih =>
    obtain ⟨ip, certs, hstep, hI⟩ :=
      onChangeIngress_ok x509KeyPair w payload i (hd i (by simp)) (hr i (by simp))
    obtain ⟨payload', hfold, hmap⟩ :=
      ih { Ingresses := payload.Ingresses ++ [ip], TLSCertificates := certs }
        (fun j hj => hd j (by simp [hj])) (fun j hj => hr j (by simp [hj]))
    refine ⟨payload', ?_, ?_⟩
    · rw [List.foldlM_cons, hstep]
      simpa using hfold
    · rw [hmap]
      simp [hI]

theorem onChange_ok (x509KeyPair : String → String → Option Certificate) (w : Listers)
    (ings : List Ingress) (hlist : w.ingresses = some ings)
    (hd : ∀ i ∈ ings, defaultOk i = true)
    (hr : ∀ i ∈ ings, ∀ r ∈ i.Spec.Rules, r.HTTP ≠ none) :
    ∃ payload, onChange x509KeyPair w = some (some payload) ∧
      payload.Ingresses.map (fun ip => ip.Ingress) = ings := by
  obtain ⟨payload, hfold, hmap⟩ :=
    onChange_fold_ok x509KeyPair w ings { Ingresses := [], TLSCertificates := [] } hd hr
  refine ⟨payload, ?_, by simpa using hmap⟩
  simp [onChange, hlist, hfold]

end watcher

namespace server

open networking

theorem mem_visited (payload : watcher.Payload) (x : watcher.IngressPayload × IngressRule) :
    x ∈ visited payload ↔ x.1 ∈ payload.Ingresses ∧ x.2 ∈ x.1.Ingress.Spec.Rules := by
  obtain ⟨ip, rule⟩ := x
  simp only [visited, List.mem_flatMap, List.mem_map, Prod.mk.injEq]
  constructor
  · rintro ⟨ip', hip', r, hr, rfl, rfl⟩
    exact ⟨hip', hr⟩
  · rintro ⟨h1, h2⟩
    exact ⟨ip, h1, rule, h2, rfl, rfl⟩

theorem noNil_HTTP (rule : IngressRule) (h : noNil rule = true) : rule.HTTP ≠ none := by
  intro hn
  simp [noNil, hn] at h

end server

open watcher in
/-- Counterexample to C5 as stated: the rule for `h.example.com` has the path `/gone` to
the service `missing`, absent from the service listing, and the path `/` to the listed
service `web`. The rebuild completes and the backend sequence of the host holds both
paths, `/gone` included. -/
theorem rebuild_missing_service_counterexample :
    Listers.getService
        { ingresses := some [ingressOf
            [ruleFor "h.example.com"
              [pathTo "/gone" PathTypePrefix "missing" 80, pathTo "/" PathTypePrefix "web" 80]]],
          services := [{ Namespace := "default", Name := "web",
                         Ports := [{ Name := "http", Port := 80 }] }],
          secrets := [] }
        "default" "missing" = none ∧
    rebuild parseServiceLink (fun _ _ => none)
        { ingresses := some [ingressOf
            [ruleFor "h.example.com"
              [pathTo "/gone" PathTypePrefix "missing" 80, pathTo "/" PathTypePrefix "web" 80]]],
          services := [{ Namespace := "default", Name := "web",
                         Ports := [{ Name := "http", Port := 80 }] }],
          secrets := [] }
        New
      = some
        { resources :=
            [("h.example.com",
              hostWith [backendTo "/gone" PathTypePrefix "missing:80",
                        backendTo "/" PathTypePrefix "web:80"])] } := by
  constructor <;> decide

open watcher in
/-- C5, amended. The rebuild never consults the service listing when it builds backends.
For every control-plane listing whose ingresses have service default backends (if any)
and whose rules meet no nil pointer: `onChange` calls back with a payload holding the
listed ingresses in order, the rebuild (`onChange`, then `Update`) completes, the host
of every rule is present in the resulting table, and the backend sequence of a host is
built from the last rule naming it, with one entry for every path whose link parses;
a path that references a service absent from the service listing is kept like any
other. -/
theorem rebuild_ignores_service_listing (parse : String → Option URL)
    (x509KeyPair : String → String → Option Certificate) (w : Listers) (s : Server)
    (ings : List Ingress) (hlist : w.ingresses = some ings)
    (hd : ∀ i ∈ ings, defaultOk i = true)
    (hr : ∀ i ∈ ings, ∀ r ∈ i.Spec.Rules, noNil r = true) :
    ∃ payload s', onChange x509KeyPair w = some (some payload) ∧
      payload.Ingresses.map (fun ip => ip.Ingress) = ings ∧
      rebuild parse x509KeyPair w s = some s' ∧
      (∀ i ∈ ings, ∀ r ∈ i.Spec.Rules, (mapGet s'.resources r.Host).isSome = true) ∧
      (∀ pre ingressPayload rule post,
        visited payload = pre ++ (ingressPayload, rule) :: post →
        (∀ y ∈ post, y.2.Host ≠ rule.Host) →
        ∃ http r, rule.HTTP = some http ∧ mapGet s'.resources rule.Host = some r ∧
          r.Backends = http.Paths.filterMap (backendOf parse) ∧
          ∀ path ∈ http.Paths, ∀ (service : IngressServiceBackend) (pt : PathType) (u : URL),
            path.Backend.Service = some service → path.PathType = some pt →
            parse (link service) = some u →
            w.getService ingressPayload.Ingress.Namespace service.Name = none →
            ({ path := path.Path, pathType := pt, url := u } : backend) ∈ r.Backends) := by
  obtain ⟨payload, hon, hmap⟩ := onChange_ok x509KeyPair w ings hlist hd
    (fun i hi r hr' => noNil_HTTP r (hr i hi r hr'))
  have hwf : ∀ x ∈ visited payload, noNil x.2 = true := by
    intro x hx
    obtain ⟨h1, h2⟩ := (mem_visited payload x).1 hx
    have hI : x.1.Ingress ∈ ings := by
      rw [← hmap]
      exact List.mem_map.2 ⟨x.1, h1, rfl⟩
    exact hr x.1.Ingress hI x.2 h2
  obtain ⟨s', hs'⟩ := fold_total parse payload (visited payload) s hwf
  have hreb : rebuild parse x509KeyPair w s = some s' := by
    simp only [rebuild, hon]
    rw [Update_eq_fold]
    exact hs'
  refine ⟨payload, s', hon, hmap, hreb, ?_, ?_⟩
  · intro i hi r hri
    rw [← hmap] at hi
    obtain ⟨ip, hip, hipI⟩ := List.mem_map.1 hi
    have hmem : (ip, r) ∈ visited payload :=
      (mem_visited payload (ip, r)).2 ⟨hip, by rw [hipI]; exact hri⟩
    rw [fold_get_isSome parse payload (visited payload) s s' hs' r.Host]
    exact Or.inr (List.mem_map.2 ⟨(ip, r), hmem, rfl⟩)
  · intro pre ip rule post hl hpost
    have hmem : (ip, rule) ∈ visited payload := by
      rw [hl]
      simp
    obtain ⟨http, r, hhttp, hnew, hB, _⟩ := newResource_of_noNil parse payload ip rule
      (hwf (ip, rule) hmem)
    rw [hl] at hs'
    obtain ⟨r', hr', hget⟩ := fold_get_last parse payload pre post (ip, rule) s s' hs' hpost
    have hrr : r = r' := Option.some.inj (hnew.symm.trans hr')
    subst hrr
    refine ⟨http, r, hhttp, hget, hB, ?_⟩
    intro path hpath service pt u hsvc hpt hu _
    rw [hB]
    refine List.mem_filterMap.2 ⟨path, hpath, ?_⟩
    simp [backendOf, hsvc, hpt, hu]

open watcher in
/-- Witness of C5 amended: the listing of the counterexample. -/
theorem rebuild_ignores_service_listing_witness :
    ∃ s', rebuild parseServiceLink (fun _ _ => none)
        { ingresses := some [ingressOf
            [ruleFor "h.example.com"
              [pathTo "/gone" PathTypePrefix "missing" 80, pathTo "/" PathTypePrefix "web" 80]]],
          services := [{ Namespace := "default", Name := "web",
                         Ports := [{ Name := "http", Port := 80 }] }],
          secrets := [] }
        New = some s' ∧
      (mapGet s'.resources "h.example.com").isSome = true := by
  obtain ⟨_, s', _, _, h3, h4, _⟩ := rebuild_ignores_service_listing parseServiceLink
    (fun _ _ => none)
    { ingresses := some [ingressOf
        [ruleFor "h.example.com"
          [pathTo "/gone" PathTypePrefix "missing" 80, pathTo "/" PathTypePrefix "web" 80]]],
      services := [{ Namespace := "default", Name := "web",
                     Ports := [{ Name := "http", Port := 80 }] }],
      secrets := [] }
    New
    [ingressOf
      [ruleFor "h.example.com"
        [pathTo "/gone" PathTypePrefix "missing" 80, pathTo "/" PathTypePrefix "web" 80]]]
    rfl (by decide) (by decide)
  exact ⟨s', h3, h4 _ (List.mem_singleton.2 rfl) (ruleFor "h.example.com"
      [pathTo "/gone" PathTypePrefix "missing" 80, pathTo "/" PathTypePrefix "web" 80])
      (List.mem_singleton.2 rfl)⟩

open watcher in
/-- C10, the code at the failing input. The listing holds one ingress whose first rule
has no HTTP section and whose second rule is well-formed. `onChange` skips every rule
that has an HTTP section and reads `rule.HTTP.Paths` of the rule that has none: it
panics and never calls back. `Update`, handed the same ingress, panics on the same
rule before it writes any host. -/
theorem rule_without_http_panics (parse : String → Option URL)
    (x509KeyPair : String → String → Option Certificate) :
    onChange x509KeyPair
        { ingresses := some [ingressOf
            [{ Host := "bare.example.com", HTTP := none },
             ruleFor "ok.example.com" [pathTo "/" PathTypePrefix "web" 80]]],
          services := [], secrets := [] } = none ∧
    Update parse New
        (payloadOf [ingressOf
            [{ Host := "bare.example.com", HTTP := none },
             ruleFor "ok.example.com" [pathTo "/" PathTypePrefix "web" 80]]]) = none ∧
    rebuild parse x509KeyPair
        { ingresses := some [ingressOf
            [{ Host := "bare.example.com", HTTP := none },
             ruleFor "ok.example.com" [pathTo "/" PathTypePrefix "web" 80]]],
          services := [], secrets := [] } New = none := by
  refine ⟨rfl, rfl, rfl⟩
